import Mathlib

/-!
Shallow embedding of the globiter pattern-expansion library
(src/pattern.rs and src/token.rs) and proofs about it.

Strings are modelled as lists of unicode characters; the byte offsets of
the Rust original are modelled as character offsets (every offset the
source ever slices at is a character boundary, so the slices agree; only
the numbers printed inside error messages differ on multi-byte input, and
no theorem below inspects those numbers).  Rust `usize` arithmetic that
can overflow is reduced modulo `2 ^ 64` (release-mode wrap-around);
`str::parse::<usize>` reports overflow as an `Err`, which is modelled by
an explicit bound check.  A Rust panic (an out-of-bounds string slice) is
modelled by `Option.none`.
-/

/-- Strings of the source are lists of characters here. -/
abbrev Str := List Char

/-- The `usize` width bound: the source targets 64-bit platforms. -/
def usizeBound : Nat := 2 ^ 64

/-- Unicode code points with the White_Space property, as tested by Rust
`char::is_whitespace` (reached through `str::trim`). -/
def isRustWhitespace (c : Char) : Bool :=
  c.toNat = 0x09 || c.toNat = 0x0A || c.toNat = 0x0B || c.toNat = 0x0C ||
  c.toNat = 0x0D || c.toNat = 0x20 || c.toNat = 0x85 || c.toNat = 0xA0 ||
  c.toNat = 0x1680 || (0x2000 ≤ c.toNat && c.toNat ≤ 0x200A) ||
  c.toNat = 0x2028 || c.toNat = 0x2029 || c.toNat = 0x202F ||
  c.toNat = 0x205F || c.toNat = 0x3000

/-- Rust `str::trim`: remove leading and trailing whitespace. -/
def trimStr (s : Str) : Str :=
  ((s.dropWhile isRustWhitespace).reverse.dropWhile isRustWhitespace).reverse

/-- Rust `char::is_ascii_uppercase`. -/
def isAsciiUpper (c : Char) : Bool := 65 ≤ c.toNat && c.toNat ≤ 90

/-- Rust `char::is_ascii_lowercase`. -/
def isAsciiLower (c : Char) : Bool := 97 ≤ c.toNat && c.toNat ≤ 122

/-- Matches the Rust pattern `'A'..='Z' | 'a'..='z'`. -/
def isAsciiLetter (c : Char) : Bool := isAsciiUpper c || isAsciiLower c

/-- Matches the Rust pattern `'0'..='9'`. -/
def isAsciiDigit (c : Char) : Bool := 48 ≤ c.toNat && c.toNat ≤ 57

/-- `Token` from src/token.rs.  `NumRange` stores start, stop and the
padding width; `StrRange` stores the two bijective base-26 ranks and the
uppercase flag.  (The Rust field written `end` is called `stop` here
because `end` is a Lean keyword.) -/
inductive Token where
  | Plain (s : Str)
  | Set (vs : List Str)
  | NumRange (start stop padding : Nat)
  | StrRange (start stop : Nat) (uppercase : Bool)
deriving DecidableEq

/-- Number of characters in an inclusive character range: the `n` of both
radix helpers in src/token.rs. -/
def radixSize (lo hi : Char) : Nat := hi.toNat - lo.toNat + 1

/-- Digits of `x` in bijective base `n`, least significant first: the
`while` loop of `to_alphabetic_radix` (src/token.rs).  The fuel argument
makes the loop structurally recursive; any `fuel ≥ x` computes the same
list (`toAlphaDigitsFuel_congr` below). -/
def toAlphaDigitsFuel : Nat → Nat → Nat → List Nat
  | 0, _, _ => []
  | fuel + 1, x, n =>
    if x = 0 then [] else ((x - 1) % n) :: toAlphaDigitsFuel fuel ((x - 1) / n) n

/-- Digits of `x` in bijective base `n`, least significant first. -/
def toAlphaDigits (x n : Nat) : List Nat := toAlphaDigitsFuel x x n

/-- `to_alphabetic_radix` from src/token.rs: the alphabetic numeral of the
positive rank `x` over the inclusive character range `lo..=hi` (digit
characters are collected least significant first, then reversed). -/
def to_alphabetic_radix (x : Nat) (lo hi : Char) : Str :=
  ((toAlphaDigits x (radixSize lo hi)).map (fun d => Char.ofNat (lo.toNat + d))).reverse

/-- The `try_fold` of `parse_alphabetic_radix` (src/token.rs); `acc` is the
`usize` accumulator, wrapped modulo `usizeBound`. -/
def parseAlphaAux (lo hi : Char) : Str → Nat → Except String Nat
  | [], acc => .ok acc
  | c :: cs, acc =>
    if lo ≤ c ∧ c ≤ hi then
      parseAlphaAux lo hi cs ((acc * radixSize lo hi + (c.toNat - lo.toNat) + 1) % usizeBound)
    else
      .error "char not in range"

/-- `parse_alphabetic_radix` from src/token.rs. -/
def parse_alphabetic_radix (s : Str) (lo hi : Char) : Except String Nat :=
  parseAlphaAux lo hi s 0

/-- `Token::new_str_range` from src/token.rs: pick the radix from the case
of the first character of each endpoint, reject mixed cases, then parse
both endpoints as bijective base-26 numerals. -/
def Token.new_str_range (start stop : Str) : Except String Token :=
  match start.head?, stop.head? with
  | some c1, some c2 =>
    match isAsciiUpper c1, isAsciiUpper c2 with
    | false, false => do
      let a ← parse_alphabetic_radix start 'a' 'z'
      let b ← parse_alphabetic_radix stop 'a' 'z'
      pure (Token.StrRange a b false)
    | true, true => do
      let a ← parse_alphabetic_radix start 'A' 'Z'
      let b ← parse_alphabetic_radix stop 'A' 'Z'
      pure (Token.StrRange a b true)
    | _, _ => .error "mixed uppercase with lowercase in alphabetic range"
  | none, _ => .error "range start cannot be empty"
  | _, none => .error "range end cannot be empty"

/-- Decimal value of a digit string. -/
def decimalVal (s : Str) : Nat := s.foldl (fun a c => a * 10 + (c.toNat - 48)) 0

/-- Rust `str::parse::<usize>`: an optional leading `+` sign, then at least
one ASCII digit; a value that does not fit in 64 bits is an `Err`
(`PosOverflow`), not a panic. -/
def rustParseUsize (s : Str) : Except String Nat :=
  let t := if s.head? = some '+' then s.tail else s
  if t ≠ [] ∧ t.all isAsciiDigit then
    if decimalVal t < usizeBound then .ok (decimalVal t)
    else .error "number too large to fit in target type"
  else .error "invalid digit found in string"

/-- Decimal digits of `x`, most significant first, with fuel for the
division recursion; any `fuel > x` computes the same list. -/
def natDigitsFuel : Nat → Nat → Str
  | 0, _ => []
  | fuel + 1, x =>
    if x < 10 then [Char.ofNat (48 + x)]
    else natDigitsFuel fuel (x / 10) ++ [Char.ofNat (48 + x % 10)]

/-- Decimal representation of a natural number, as printed by Rust
`format!` for an unpadded `usize`. -/
def natDigits (x : Nat) : Str := natDigitsFuel (x + 1) x

/-- Zero padding: `format!` with a `0w$` width spec left-pads the decimal
digits with `0` up to width `w` and never truncates. -/
def padZero (w : Nat) (ds : Str) : Str := List.replicate (w - ds.length) '0' ++ ds

/-- The full value sequence of one token: `TokenIter` (src/token.rs)
collected into a list.  `RangeInclusive` iteration `a..=b` yields
`a, a+1, ..., b`, and nothing when `a > b`. -/
def Token.values : Token → List Str
  | .Plain v => [v]
  | .Set vs => vs
  | .NumRange a b pad => (List.range' a (b + 1 - a)).map (fun x => padZero pad (natDigits x))
  | .StrRange a b up =>
    (List.range' a (b + 1 - a)).map
      (fun x => if up then to_alphabetic_radix x 'A' 'Z' else to_alphabetic_radix x 'a' 'z')

/-- `State` from src/pattern.rs (`InSet` carries the alternatives collected
so far, `InRange` the captured start literal). -/
inductive ParseState where
  | Plain
  | InSet (v : List Str)
  | InRange (start : Str)
deriving DecidableEq

/-- Rust string slicing `&s[i..j]`: panics (`none`) unless `i ≤ j ≤ s.len()`. -/
def sliceStr (s : Str) (i j : Nat) : Option Str :=
  if i ≤ j ∧ j ≤ s.length then some ((s.drop i).take (j - i)) else none

/-- Classification of a completed `[start-end]` range: the `']'` arm of
`Pattern::parse` (src/pattern.rs), dispatching on the first character of
each endpoint. -/
def classifyRange (start stop : Str) (idx : Nat) : Except String Token :=
  match start.head?, stop.head? with
  | some c1, some c2 =>
    if isAsciiLetter c1 ∧ isAsciiLetter c2 then Token.new_str_range start stop
    else if isAsciiDigit c1 ∧ isAsciiDigit c2 then do
      let a ← rustParseUsize start
      let b ← rustParseUsize stop
      pure (Token.NumRange a b (min start.length stop.length))
    else .error ("invalid characters in range token before pos " ++ toString idx)
  | _, _ => .error ("invalid characters in range token before pos " ++ toString idx)

/-- Result of one iteration of the scan loop body: a panic, a parse
error, or a continuation with updated buffer bounds, state and tokens. -/
inductive StepRes where
  | panic
  | fail (e : String)
  | cont (i j : Nat) (st : ParseState) (tks : List Token)
deriving DecidableEq

/-- One iteration of the `for (idx, char)` loop body of `Pattern::parse`
(src/pattern.rs), on character `c` at position `idx`; `i`/`j` are the
bounds of the current buffer slice of `s`. -/
def parseStep (s : Str) (c : Char) (idx i j : Nat) (st : ParseState)
    (tks : List Token) : StepRes :=
  if c = '\x7b' then
    match st with
    | .Plain =>
      match sliceStr s i j with
      | none => .panic
      | some buf => .cont (idx + 1) (idx + 1) (.InSet []) (tks ++ [Token.Plain buf])
    | .InSet _ => .fail ("unexpected character \x7b at pos " ++ toString idx)
    | .InRange _ => .fail ("unexpected character \x7b at pos " ++ toString idx)
  else if c = '[' then
    match st with
    | .Plain =>
      match sliceStr s i j with
      | none => .panic
      | some buf => .cont (idx + 1) (idx + 1) (.InRange []) (tks ++ [Token.Plain buf])
    | .InSet _ => .fail ("unexpected character [ at pos " ++ toString idx)
    | .InRange _ => .fail ("unexpected character [ at pos " ++ toString idx)
  else if c = '\x7d' then
    match st with
    | .InSet v =>
      match sliceStr s i j with
      | none => .panic
      | some buf => .cont (idx + 1) (idx + 1) .Plain (tks ++ [Token.Set (v ++ [trimStr buf])])
    | .Plain => .fail ("unexpected character \x7d at pos " ++ toString idx)
    | .InRange _ => .fail ("unexpected character \x7d at pos " ++ toString idx)
  else if c = ']' then
    match st with
    | .InRange start =>
      match sliceStr s i j with
      | none => .panic
      | some buf =>
        match classifyRange start (trimStr buf) idx with
        | .error e => .fail e
        | .ok tok => .cont (idx + 1) (idx + 1) .Plain (tks ++ [tok])
    | .Plain => .fail ("unexpected character ] at pos " ++ toString idx)
    | .InSet _ => .fail ("unexpected character ] at pos " ++ toString idx)
  else if c = ',' then
    match st with
    | .Plain => .cont i (idx + 1) .Plain tks
    | .InSet v =>
      match sliceStr s i j with
      | none => .panic
      | some buf => .cont (idx + 1) (idx + 1) (.InSet (v ++ [trimStr buf])) tks
    | .InRange _ => .fail ("unexpected character , at pos " ++ toString idx)
  else if c = '-' then
    match st with
    | .Plain => .cont i (idx + 1) .Plain tks
    | .InSet v => .cont i (idx + 1) (.InSet v) tks
    | .InRange _ =>
      match sliceStr s i j with
      | none => .panic
      | some buf => .cont (idx + 1) (idx + 1) (.InRange (trimStr buf)) tks
  else
    .cont i (idx + 1) st tks

/-- The scanning loop of `Pattern::parse` (src/pattern.rs).  `s` is the
whole input, the second argument the characters not yet scanned, `idx` the
position of the next character; after the loop, a non-empty buffer is
flushed trimmed as a final `Plain` token.  `none` models a panic. -/
def parseLoop (s : Str) :
    Str → Nat → Nat → Nat → ParseState → List Token → Option (Except String (List Token))
  | [], _idx, i, j, _state, tokens =>
    if j > i then
      match sliceStr s i j with
      | none => none
      | some buf => some (.ok (tokens ++ [Token.Plain (trimStr buf)]))
    else some (.ok tokens)
  | c :: rest, idx, i, j, state, tokens =>
    match parseStep s c idx i j state tokens with
    | .panic => none
    | .fail e => some (.error e)
    | .cont i1 j1 st1 tks1 => parseLoop s rest (idx + 1) i1 j1 st1 tks1

/-- `Pattern` from src/pattern.rs. -/
structure Pattern where
  original : Str
  tokens : List Token
deriving DecidableEq

/-- `Pattern::parse` (src/pattern.rs). -/
def Pattern.parse (s : Str) : Option (Except String Pattern) :=
  match parseLoop s s 0 0 0 .Plain [] with
  | none => none
  | some (.error e) => some (.error e)
  | some (.ok tks) => some (.ok (Pattern.mk s tks))

/-- The mathematical cartesian product of a list of lists, first list
varying slowest. -/
def cartesianProduct : List (List α) → List (List α)
  | [] => [[]]
  | l :: ls => l.flatMap (fun x => (cartesianProduct ls).map (fun r => x :: r))

/-- itertools `multi_cartesian_product` as the source calls it: on a
non-empty list of iterators it enumerates the product with the first
iterator varying slowest; on an empty list of iterators it yields nothing
at all (`MultiProduct::iterate_last` on an empty iterator slice returns
`false` in the `StartOfIter` state, so `next()` is always `None`). -/
def multiCartesianProduct : List (List α) → List (List α)
  | [] => []
  | l :: ls => cartesianProduct (l :: ls)

/-- `Pattern::iter` (src/pattern.rs) collected into a list:
`tokens.iter().map(iter).multi_cartesian_product().map(join)`. -/
def Pattern.expand (p : Pattern) : List Str :=
  (multiCartesianProduct (p.tokens.map Token.values)).map List.flatten

/-- Parse then expand: the end-to-end behavior a caller observes. -/
def patternExpand (s : Str) : Option (Except String (List Str)) :=
  match Pattern.parse s with
  | none => none
  | some (.error e) => some (.error e)
  | some (.ok p) => some (.ok p.expand)

/-- Input text of a single bracket range with the given endpoint texts. -/
def rangeInput (a b : Str) : Str := '[' :: (a ++ '-' :: (b ++ [']']))

/-! Fuel lemmas for the two while-loops. -/

theorem toAlphaDigitsFuel_zero (f n : Nat) : toAlphaDigitsFuel f 0 n = [] := by
  cases f <;> simp [toAlphaDigitsFuel]

theorem toAlphaDigitsFuel_congr (f₁ : Nat) :
    ∀ f₂ x n, x ≤ f₁ → x ≤ f₂ → toAlphaDigitsFuel f₁ x n = toAlphaDigitsFuel f₂ x n := by
  induction f₁ with
  | zero =>
    intro f₂ x n h1 _
    have hx : x = 0 := by omega
    subst hx
    rw [toAlphaDigitsFuel_zero, toAlphaDigitsFuel_zero]
  | succ f ih =>
    intro f₂ x n h1 h2
    cases x with
    | zero => rw [toAlphaDigitsFuel_zero, toAlphaDigitsFuel_zero]
    | succ y =>
      cases f₂ with
      | zero => omega
      | succ g =>
        simp only [toAlphaDigitsFuel, if_neg (Nat.succ_ne_zero y)]
        have hdiv : (y + 1 - 1) / n ≤ y := by
          have := Nat.div_le_self (y + 1 - 1) n
          omega
        rw [ih g ((y + 1 - 1) / n) n (by omega) (by omega)]

theorem toAlphaDigits_eq (x n : Nat) :
    toAlphaDigits x n =
      if x = 0 then [] else ((x - 1) % n) :: toAlphaDigits ((x - 1) / n) n := by
  unfold toAlphaDigits
  cases x with
  | zero => simp [toAlphaDigitsFuel_zero]
  | succ y =>
    rw [if_neg (Nat.succ_ne_zero y)]
    simp only [toAlphaDigitsFuel, if_neg (Nat.succ_ne_zero y)]
    have hdiv : (y + 1 - 1) / n ≤ y := by
      have := Nat.div_le_self (y + 1 - 1) n
      omega
    rw [toAlphaDigitsFuel_congr y ((y + 1 - 1) / n) ((y + 1 - 1) / n) n (by omega) (by omega)]

/-! Round trip of the bijective base-26 conversion. -/

/-- Value denoted by a least-significant-first bijective digit list. -/
def bijVal (n : Nat) : List Nat → Nat
  | [] => 0
  | d :: ds => d + 1 + n * bijVal n ds

theorem bijVal_toAlphaDigits (n x : Nat) : bijVal n (toAlphaDigits x n) = x := by
  rw [toAlphaDigits_eq]
  by_cases hx : x = 0
  · subst hx; simp [bijVal]
  · rw [if_neg hx]
    simp only [bijVal]
    rw [bijVal_toAlphaDigits n ((x - 1) / n)]
    have := Nat.mod_add_div (x - 1) n
    omega
termination_by x
decreasing_by
  have := Nat.div_le_self (x - 1) n
  omega

theorem toAlphaDigits_lt (n : Nat) (hn : 0 < n) (x : Nat) :
    ∀ d ∈ toAlphaDigits x n, d < n := by
  rw [toAlphaDigits_eq]
  by_cases hx : x = 0
  · subst hx; simp
  · rw [if_neg hx]
    intro d hd
    rcases List.mem_cons.mp hd with h | h
    · subst h; exact Nat.mod_lt _ hn
    · exact toAlphaDigits_lt n hn ((x - 1) / n) d h
termination_by x
decreasing_by
  have := Nat.div_le_self (x - 1) n
  omega

theorem parseAlphaAux_append (lo hi : Char) (l₁ l₂ : Str) (acc : Nat) :
    parseAlphaAux lo hi (l₁ ++ l₂) acc =
      match parseAlphaAux lo hi l₁ acc with
      | .ok a => parseAlphaAux lo hi l₂ a
      | .error e => .error e := by
  induction l₁ generalizing acc with
  | nil => simp [parseAlphaAux]
  | cons c cs ih =>
    simp only [List.cons_append, parseAlphaAux]
    by_cases h : lo ≤ c ∧ c ≤ hi
    · rw [if_pos h, if_pos h]
      exact ih _
    · rw [if_neg h, if_neg h]

/-- Facts about a concrete letter radix needed for the round trip, bundled
so that both radixes can be checked by `decide`. -/
abbrev goodRadix (lo hi : Char) : Prop :=
  ∀ d < radixSize lo hi,
    (Char.ofNat (lo.toNat + d)).toNat = lo.toNat + d ∧
    lo ≤ Char.ofNat (lo.toNat + d) ∧ Char.ofNat (lo.toNat + d) ≤ hi

theorem parseAlphaAux_encode (lo hi : Char) (hg : goodRadix lo hi) (ds : List Nat)
    (hds : ∀ d ∈ ds, d < radixSize lo hi) (acc : Nat)
    (hb : acc * (radixSize lo hi) ^ ds.length + bijVal (radixSize lo hi) ds < usizeBound) :
    parseAlphaAux lo hi ((ds.map (fun d => Char.ofNat (lo.toNat + d))).reverse) acc =
      .ok (acc * (radixSize lo hi) ^ ds.length + bijVal (radixSize lo hi) ds) := by
  induction ds generalizing acc with
  | nil => simp [parseAlphaAux, bijVal]
  | cons d ds ih =>
    simp only [List.length_cons] at hb ⊢
    have hN : 1 ≤ radixSize lo hi := by unfold radixSize; omega
    have hpow : (radixSize lo hi) ^ ds.length ≤ (radixSize lo hi) ^ (ds.length + 1) :=
      Nat.pow_le_pow_right hN (Nat.le_succ _)
    have hvs : bijVal (radixSize lo hi) ds ≤ radixSize lo hi * bijVal (radixSize lo hi) ds :=
      Nat.le_mul_of_pos_left _ (by omega)
    have hval : acc * (radixSize lo hi) ^ (ds.length + 1) + bijVal (radixSize lo hi) (d :: ds)
        = (acc * (radixSize lo hi) ^ ds.length + bijVal (radixSize lo hi) ds)
            * radixSize lo hi + d + 1 := by
      simp only [bijVal]
      ring
    have hb' : acc * (radixSize lo hi) ^ ds.length + bijVal (radixSize lo hi) ds < usizeBound := by
      have h1 : acc * (radixSize lo hi) ^ ds.length ≤ acc * (radixSize lo hi) ^ (ds.length + 1) :=
        Nat.mul_le_mul_left _ hpow
      have h2 : bijVal (radixSize lo hi) (d :: ds)
          = d + 1 + radixSize lo hi * bijVal (radixSize lo hi) ds := rfl
      rw [h2] at hb
      omega
    have hchar := hg d (hds d (List.mem_cons_self d ds))
    simp only [List.map_cons, List.reverse_cons]
    rw [parseAlphaAux_append, ih (fun e he => hds e (List.mem_cons_of_mem d he)) acc hb']
    simp only [parseAlphaAux]
    rw [if_pos ⟨hchar.2.1, hchar.2.2⟩, hchar.1]
    have hd : lo.toNat + d - lo.toNat = d := by omega
    rw [hd, ← hval, Nat.mod_eq_of_lt hb]

theorem alpha_roundtrip_radix (lo hi : Char) (hg : goodRadix lo hi) (x : Nat)
    (hx : x < usizeBound) :
    parse_alphabetic_radix (to_alphabetic_radix x lo hi) lo hi = .ok x := by
  unfold parse_alphabetic_radix to_alphabetic_radix
  have hN : 0 < radixSize lo hi := by unfold radixSize; omega
  have h := parseAlphaAux_encode lo hi hg (toAlphaDigits x (radixSize lo hi))
    (toAlphaDigits_lt _ hN x) 0
    (by simpa [bijVal_toAlphaDigits] using hx)
  simpa [bijVal_toAlphaDigits] using h

/-! Trim and slice facts. -/

theorem dropWhile_all_false (p : α → Bool) (l : List α) (h : ∀ a ∈ l, p a = false) :
    l.dropWhile p = l := by
  cases l with
  | nil => rfl
  | cons a l =>
    rw [List.dropWhile_cons, if_neg (by simp [h a (List.mem_cons_self a l)])]

theorem trimStr_eq_self (s : Str) (h : ∀ c ∈ s, isRustWhitespace c = false) :
    trimStr s = s := by
  unfold trimStr
  rw [dropWhile_all_false _ _ h,
    dropWhile_all_false _ _ (fun a ha => h a (List.mem_reverse.mp ha)),
    List.reverse_reverse]

theorem notWs_of_midAscii (c : Char) (hc : 48 ≤ c.toNat) (hc2 : c.toNat ≤ 122) :
    isRustWhitespace c = false := by
  cases hw : isRustWhitespace c with
  | false => rfl
  | true =>
    unfold isRustWhitespace at hw
    simp only [Bool.or_eq_true, Bool.and_eq_true, decide_eq_true_eq] at hw
    omega

theorem digit_toNat_bounds (c : Char) (h : isAsciiDigit c = true) :
    48 ≤ c.toNat ∧ c.toNat ≤ 57 := by
  unfold isAsciiDigit at h
  simp only [Bool.and_eq_true, decide_eq_true_eq] at h
  exact h

theorem letter_toNat_bounds (c : Char) (h : isAsciiLetter c = true) :
    65 ≤ c.toNat ∧ c.toNat ≤ 122 := by
  unfold isAsciiLetter isAsciiUpper isAsciiLower at h
  simp only [Bool.or_eq_true, Bool.and_eq_true, decide_eq_true_eq] at h
  omega

theorem sliceStr_isSome (s : Str) (i j : Nat) (h1 : i ≤ j) (h2 : j ≤ s.length) :
    sliceStr s i j = some ((s.drop i).take (j - i)) := by
  unfold sliceStr
  rw [if_pos ⟨h1, h2⟩]

theorem sliceStr_full (s : Str) : sliceStr s 0 s.length = some s := by
  rw [sliceStr_isSome s 0 s.length (Nat.zero_le _) (Nat.le_refl _)]
  simp

theorem sliceStr_emptyAt (s : Str) (i : Nat) (h : i ≤ s.length) : sliceStr s i i = some [] := by
  rw [sliceStr_isSome s i i (Nat.le_refl _) h]
  simp

theorem sliceStr_mid (a b c : Str) :
    sliceStr (a ++ (b ++ c)) a.length (a.length + b.length) = some b := by
  rw [sliceStr_isSome _ _ _ (Nat.le_add_right _ _) (by simp [List.length_append])]
  rw [Nat.add_sub_cancel_left, List.drop_left, List.take_left]

/-! Stepping the scan loop over ordinary characters. -/

/-- Characters on which the scan loop, in the given state, only advances the
buffer end `j` (no flush, no state change, no error). -/
def ordinaryChar : ParseState → Char → Bool
  | .Plain, c => !(c = '\x7b' || c = '[' || c = '\x7d' || c = ']')
  | .InSet _, c => !(c = '\x7b' || c = '[' || c = '\x7d' || c = ']' || c = ',')
  | .InRange _, c => !(c = '\x7b' || c = '[' || c = '\x7d' || c = ']' || c = ',' || c = '-')

theorem parseLoop_cons (s : Str) (c : Char) (rest : Str) (idx i j : Nat)
    (st : ParseState) (tks : List Token) :
    parseLoop s (c :: rest) idx i j st tks =
      match parseStep s c idx i j st tks with
      | .panic => none
      | .fail e => some (.error e)
      | .cont i1 j1 st1 tks1 => parseLoop s rest (idx + 1) i1 j1 st1 tks1 := rfl

theorem parseStep_ordinary (s : Str) (c : Char) (idx i j : Nat)
    (st : ParseState) (tks : List Token) (hc : ordinaryChar st c = true) :
    parseStep s c idx i j st tks = .cont i (idx + 1) st tks := by
  cases st with
  | Plain =>
    simp only [ordinaryChar, Bool.not_eq_true', Bool.or_eq_false_iff,
      decide_eq_false_iff_not] at hc
    obtain ⟨⟨⟨h1, h2⟩, h3⟩, h4⟩ := hc
    by_cases h5 : c = ','
    · simp only [parseStep, if_neg h1, if_neg h2, if_neg h3, if_neg h4, if_pos h5]
    · by_cases h6 : c = '-'
      · simp only [parseStep, if_neg h1, if_neg h2, if_neg h3, if_neg h4, if_neg h5, if_pos h6]
      · simp only [parseStep, if_neg h1, if_neg h2, if_neg h3, if_neg h4, if_neg h5, if_neg h6]
  | InSet v =>
    simp only [ordinaryChar, Bool.not_eq_true', Bool.or_eq_false_iff,
      decide_eq_false_iff_not] at hc
    obtain ⟨⟨⟨⟨h1, h2⟩, h3⟩, h4⟩, h5⟩ := hc
    by_cases h6 : c = '-'
    · simp only [parseStep, if_neg h1, if_neg h2, if_neg h3, if_neg h4, if_neg h5, if_pos h6]
    · simp only [parseStep, if_neg h1, if_neg h2, if_neg h3, if_neg h4, if_neg h5, if_neg h6]
  | InRange v =>
    simp only [ordinaryChar, Bool.not_eq_true', Bool.or_eq_false_iff,
      decide_eq_false_iff_not] at hc
    obtain ⟨⟨⟨⟨⟨h1, h2⟩, h3⟩, h4⟩, h5⟩, h6⟩ := hc
    simp only [parseStep, if_neg h1, if_neg h2, if_neg h3, if_neg h4, if_neg h5, if_neg h6]

theorem parseLoop_run (s cs : Str) :
    ∀ rest idx i st tks, (∀ c ∈ cs, ordinaryChar st c = true) →
      parseLoop s (cs ++ rest) idx i idx st tks =
        parseLoop s rest (idx + cs.length) i (idx + cs.length) st tks := by
  induction cs with
  | nil =>
    intro rest idx i st tks _
    simp
  | cons c cs ih =>
    intro rest idx i st tks h
    rw [List.cons_append, parseLoop_cons,
      parseStep_ordinary s c idx i idx st tks (h c (List.mem_cons_self c cs))]
    show parseLoop s (cs ++ rest) (idx + 1) i (idx + 1) st tks = _
    rw [ih rest (idx + 1) i st tks (fun d hd => h d (List.mem_cons_of_mem c hd)),
      show idx + 1 + cs.length = idx + (cs.length + 1) from by omega]
    simp [List.length_cons]

/-! The scan never panics: every slice it takes is in bounds. -/

theorem parseLoop_nil (s : Str) (idx i j : Nat) (st : ParseState) (tks : List Token) :
    parseLoop s [] idx i j st tks =
      if j > i then
        match sliceStr s i j with
        | none => none
        | some buf => some (.ok (tks ++ [Token.Plain (trimStr buf)]))
      else some (.ok tks) := rfl

theorem parseStep_invariant (s : Str) (c : Char) (idx i j : Nat) (st : ParseState)
    (tks : List Token) (h1 : i ≤ j) (h2 : j ≤ idx) (h3 : idx ≤ s.length) :
    parseStep s c idx i j st tks ≠ .panic ∧
    ∀ i1 j1 st1 tks1, parseStep s c idx i j st tks = .cont i1 j1 st1 tks1 →
      i1 ≤ j1 ∧ j1 ≤ idx + 1 := by
  have hs := sliceStr_isSome s i j h1 (Nat.le_trans h2 h3)
  unfold parseStep
  split_ifs <;> cases st <;> (try simp only [hs]) <;> (try split) <;>
    (refine ⟨by simp, ?_⟩
     intro i1 j1 st1 tks1 heq
     first
     | (injection heq with e1 e2 e3 e4
        subst e1
        subst e2
        omega)
     | injection heq)

theorem parseLoop_isSome (s rest : Str) :
    ∀ idx i j st tks, i ≤ j → j ≤ idx → idx + rest.length = s.length →
      parseLoop s rest idx i j st tks ≠ none := by
  induction rest with
  | nil =>
    intro idx i j st tks h1 h2 h3
    rw [parseLoop_nil]
    by_cases hj : j > i
    · rw [if_pos hj, sliceStr_isSome s i j h1 (by simp at h3; omega)]
      simp
    · rw [if_neg hj]
      simp
  | cons c rest ih =>
    intro idx i j st tks h1 h2 h3
    rw [parseLoop_cons]
    have hinv := parseStep_invariant s c idx i j st tks h1 h2
      (by simp [List.length_cons] at h3; omega)
    cases hps : parseStep s c idx i j st tks with
    | panic => exact absurd hps hinv.1
    | fail e => simp
    | cont i1 j1 st1 tks1 =>
      obtain ⟨hi, hj⟩ := hinv.2 i1 j1 st1 tks1 hps
      exact ih (idx + 1) i1 j1 st1 tks1 hi hj
        (by simp [List.length_cons] at h3; omega)

theorem parse_isSome (s : Str) : (Pattern.parse s).isSome = true := by
  unfold Pattern.parse
  cases hp : parseLoop s s 0 0 0 .Plain [] with
  | none =>
    exact absurd hp (parseLoop_isSome s s 0 0 0 .Plain []
      (Nat.le_refl 0) (Nat.le_refl 0) (Nat.zero_add _))
  | some r => cases r <;> simp

/-! Cartesian product lemmas. -/

theorem cartesianProduct_nil_mem (ls : List (List α)) (h : [] ∈ ls) :
    cartesianProduct ls = [] := by
  induction ls with
  | nil => cases h
  | cons l ls ih =>
    rcases List.mem_cons.mp h with h | h
    · subst h
      rfl
    · show l.flatMap (fun x => (cartesianProduct ls).map (fun r => x :: r)) = []
      rw [ih h]
      simp

theorem cartesianProduct_cons_getElem (l : List α) (ls : List (List α)) :
    ∀ i k x r, l[i]? = some x → (cartesianProduct ls)[k]? = some r →
      (cartesianProduct (l :: ls))[i * (cartesianProduct ls).length + k]? = some (x :: r) := by
  induction l with
  | nil =>
    intro i k x r hx _
    simp at hx
  | cons y l ih =>
    intro i k x r hx hr
    have hsplit : cartesianProduct ((y :: l) :: ls)
        = ((cartesianProduct ls).map (fun r => y :: r)) ++ cartesianProduct (l :: ls) := rfl
    cases i with
    | zero =>
      simp only [List.getElem?_cons_zero] at hx
      injection hx with hx
      subst hx
      have hk : k < (cartesianProduct ls).length := by
        rcases List.getElem?_eq_some.mp hr with ⟨hk, _⟩
        exact hk
      rw [hsplit, Nat.zero_mul, Nat.zero_add, List.getElem?_append,
        if_pos (by simpa using hk), List.getElem?_map, hr]
      rfl
    | succ i =>
      have hidx : (i + 1) * (cartesianProduct ls).length + k
          = (cartesianProduct ls).length + (i * (cartesianProduct ls).length + k) := by
        ring
      rw [hsplit, hidx, List.getElem?_append,
        if_neg (by rw [List.length_map]; omega),
        List.length_map, Nat.add_sub_cancel_left]
      exact ih i k x r (by simpa using hx) hr

theorem cartesianProduct_singleton (vals : List Str) :
    cartesianProduct [vals] = vals.map (fun v => [v]) := by
  show vals.flatMap (fun v => (cartesianProduct []).map (fun r => v :: r)) = _
  induction vals with
  | nil => rfl
  | cons v vs ih =>
    rw [List.flatMap_cons, ih]
    rfl

theorem expand_single (vals : List Str) :
    (multiCartesianProduct [[([] : Str)], vals]).map List.flatten = vals := by
  show (([([] : Str)].flatMap
      (fun x => (cartesianProduct [vals]).map (fun r => x :: r))).map List.flatten) = vals
  rw [List.flatMap_cons, List.flatMap_nil, List.append_nil, cartesianProduct_singleton,
    List.map_map, List.map_map]
  have hf : ∀ w : Str, ((List.flatten ∘ fun r => ([] : Str) :: r) ∘ fun v => [v]) w = w := by
    intro w
    show ([] : Str) ++ (w ++ []) = w
    simp
  rw [funext hf]
  exact List.map_id vals

/-! Alphanumeric characters are ordinary for the scanner and never trimmed. -/

theorem ordinaryChar_of_alnum (st : ParseState) (c : Char)
    (h : isAsciiLetter c = true ∨ isAsciiDigit c = true) :
    ordinaryChar st c = true := by
  have hb : (65 ≤ c.toNat ∧ c.toNat ≤ 90) ∨ (97 ≤ c.toNat ∧ c.toNat ≤ 122) ∨
      (48 ≤ c.toNat ∧ c.toNat ≤ 57) := by
    rcases h with h | h
    · unfold isAsciiLetter isAsciiUpper isAsciiLower at h
      simp only [Bool.or_eq_true, Bool.and_eq_true, decide_eq_true_eq] at h
      omega
    · have := digit_toNat_bounds c h
      omega
  have h1 : ¬(c = '\x7b') := by intro he; subst he; revert hb; decide
  have h2 : ¬(c = '[') := by intro he; subst he; revert hb; decide
  have h3 : ¬(c = '\x7d') := by intro he; subst he; revert hb; decide
  have h4 : ¬(c = ']') := by intro he; subst he; revert hb; decide
  have h5 : ¬(c = ',') := by intro he; subst he; revert hb; decide
  have h6 : ¬(c = '-') := by intro he; subst he; revert hb; decide
  cases st <;> simp [ordinaryChar, h1, h2, h3, h4, h5, h6]

theorem notWs_of_alnum (c : Char)
    (h : isAsciiLetter c = true ∨ isAsciiDigit c = true) :
    isRustWhitespace c = false := by
  rcases h with h | h
  · have := letter_toNat_bounds c h
    exact notWs_of_midAscii c (by omega) (by omega)
  · have := digit_toNat_bounds c h
    exact notWs_of_midAscii c (by omega) (by omega)

/-! Concrete steps of the scanner used when tracing a bracket range. -/

theorem parseStep_lbracket (s : Str) (idx i j : Nat) (tks : List Token) :
    parseStep s '[' idx i j .Plain tks =
      match sliceStr s i j with
      | none => .panic
      | some buf => .cont (idx + 1) (idx + 1) (.InRange []) (tks ++ [Token.Plain buf]) := by
  unfold parseStep
  rw [if_neg (by decide), if_pos rfl]

theorem parseStep_dash_inRange (s : Str) (idx i j : Nat) (v : Str) (tks : List Token) :
    parseStep s '-' idx i j (.InRange v) tks =
      match sliceStr s i j with
      | none => .panic
      | some buf => .cont (idx + 1) (idx + 1) (.InRange (trimStr buf)) tks := by
  unfold parseStep
  rw [if_neg (by decide), if_neg (by decide), if_neg (by decide), if_neg (by decide),
    if_neg (by decide), if_pos rfl]

theorem parseStep_rbracket_inRange (s : Str) (idx i j : Nat) (v : Str) (tks : List Token) :
    parseStep s ']' idx i j (.InRange v) tks =
      match sliceStr s i j with
      | none => .panic
      | some buf =>
        match classifyRange v (trimStr buf) idx with
        | .error e => .fail e
        | .ok tok => .cont (idx + 1) (idx + 1) .Plain (tks ++ [tok]) := by
  unfold parseStep
  rw [if_neg (by decide), if_neg (by decide), if_neg (by decide), if_pos rfl]

/-- Scanning `[a-b]` with alphanumeric endpoint texts reaches the range
classification with exactly those endpoints. -/
theorem parseLoop_rangeInput (a b : Str)
    (hab : ∀ c ∈ a ++ b, isAsciiLetter c = true ∨ isAsciiDigit c = true) :
    parseLoop (rangeInput a b) (rangeInput a b) 0 0 0 .Plain [] =
      match classifyRange a b (a.length + b.length + 2) with
      | .error e => some (.error e)
      | .ok tok => some (.ok [Token.Plain [], tok]) := by
  have hA : ∀ c ∈ a, ordinaryChar (ParseState.InRange []) c = true := fun c hc =>
    ordinaryChar_of_alnum _ c (hab c (List.mem_append_left _ hc))
  have hB : ∀ c ∈ b, ordinaryChar (ParseState.InRange a) c = true := fun c hc =>
    ordinaryChar_of_alnum _ c (hab c (List.mem_append_right _ hc))
  have htrima : trimStr a = a := trimStr_eq_self a
    (fun c hc => notWs_of_alnum c (hab c (List.mem_append_left _ hc)))
  have htrimb : trimStr b = b := trimStr_eq_self b
    (fun c hc => notWs_of_alnum c (hab c (List.mem_append_right _ hc)))
  have hsa : sliceStr (rangeInput a b) 1 (1 + a.length) = some a := by
    have h := sliceStr_mid ['['] a ('-' :: (b ++ [']']))
    simpa [rangeInput] using h
  have hsb : sliceStr (rangeInput a b) (a.length + 1 + 1) (a.length + 1 + 1 + b.length)
      = some b := by
    have h := sliceStr_mid ('[' :: (a ++ ['-'])) b [']']
    simpa [rangeInput] using h
  show parseLoop (rangeInput a b) ('[' :: (a ++ ('-' :: (b ++ [']'])))) 0 0 0 .Plain [] = _
  rw [parseLoop_cons, parseStep_lbracket,
    sliceStr_emptyAt (rangeInput a b) 0 (Nat.zero_le _)]
  show parseLoop (rangeInput a b) (a ++ ('-' :: (b ++ [']']))) 1 1 1
    (.InRange []) [Token.Plain []] = _
  rw [parseLoop_run (rangeInput a b) a ('-' :: (b ++ [']'])) 1 1 (.InRange [])
    [Token.Plain []] hA]
  rw [parseLoop_cons, parseStep_dash_inRange, hsa]
  simp only [htrima]
  show parseLoop (rangeInput a b) (b ++ [']']) (1 + a.length + 1) (1 + a.length + 1)
    (1 + a.length + 1) (.InRange a) [Token.Plain []] = _
  rw [show (1 + a.length + 1 : Nat) = a.length + 1 + 1 from by omega]
  rw [parseLoop_run (rangeInput a b) b [']'] (a.length + 1 + 1) (a.length + 1 + 1)
    (.InRange a) [Token.Plain []] hB]
  rw [parseLoop_cons, parseStep_rbracket_inRange, hsb]
  simp only [htrimb]
  rw [show (a.length + 1 + 1 + b.length : Nat) = a.length + b.length + 2 from by omega]
  cases hcl : classifyRange a b (a.length + b.length + 2) with
  | error e => rfl
  | ok tok =>
    show parseLoop (rangeInput a b) [] (a.length + b.length + 2 + 1)
      (a.length + b.length + 2 + 1) (a.length + b.length + 2 + 1) .Plain
      [Token.Plain [], tok] = _
    rw [parseLoop_nil, if_neg (by omega)]

/-- Parsing `[a-b]` with alphanumeric endpoint texts: the result of the
range classification, wrapped into a one-range pattern. -/
theorem parse_rangeInput (a b : Str)
    (hab : ∀ c ∈ a ++ b, isAsciiLetter c = true ∨ isAsciiDigit c = true) :
    Pattern.parse (rangeInput a b) =
      some (match classifyRange a b (a.length + b.length + 2) with
        | .error e => .error e
        | .ok tok => .ok (Pattern.mk (rangeInput a b) [Token.Plain [], tok])) := by
  unfold Pattern.parse
  rw [parseLoop_rangeInput a b hab]
  cases classifyRange a b (a.length + b.length + 2) <;> rfl

/-! Classification of range endpoints. -/

theorem not_letter_of_digit (c : Char) (h : isAsciiDigit c = true) :
    isAsciiLetter c = false := by
  have hd := digit_toNat_bounds c h
  cases hl : isAsciiLetter c with
  | false => rfl
  | true =>
    have := letter_toNat_bounds c hl
    omega

theorem not_digit_of_letter (c : Char) (h : isAsciiLetter c = true) :
    isAsciiDigit c = false := by
  have hl := letter_toNat_bounds c h
  cases hd : isAsciiDigit c with
  | false => rfl
  | true =>
    have := digit_toNat_bounds c hd
    omega

theorem rustParseUsize_digits (a : Str) (ha : a ≠ []) (hda : a.all isAsciiDigit = true)
    (hva : decimalVal a < usizeBound) :
    rustParseUsize a = .ok (decimalVal a) := by
  have hhead : ¬(a.head? = some '+') := by
    cases a with
    | nil => simp
    | cons c a' =>
      have hc : isAsciiDigit c = true := by
        rw [List.all_cons] at hda
        exact (Bool.and_eq_true_iff.mp hda).1
      have hb := digit_toNat_bounds c hc
      simp only [List.head?_cons, Option.some_inj]
      intro he
      subst he
      revert hb
      decide
  unfold rustParseUsize
  rw [if_neg hhead, if_pos ⟨ha, hda⟩, if_pos hva]

theorem classifyRange_digits (a b : Str) (idx : Nat) (ha : a ≠ []) (hb : b ≠ [])
    (hda : a.all isAsciiDigit = true) (hdb : b.all isAsciiDigit = true)
    (hva : decimalVal a < usizeBound) (hvb : decimalVal b < usizeBound) :
    classifyRange a b idx =
      .ok (Token.NumRange (decimalVal a) (decimalVal b) (min a.length b.length)) := by
  obtain ⟨c1, a', rfl⟩ : ∃ c1 a', a = c1 :: a' := by
    cases a with
    | nil => exact absurd rfl ha
    | cons c1 a' => exact ⟨c1, a', rfl⟩
  obtain ⟨c2, b', rfl⟩ : ∃ c2 b', b = c2 :: b' := by
    cases b with
    | nil => exact absurd rfl hb
    | cons c2 b' => exact ⟨c2, b', rfl⟩
  have hd1 : isAsciiDigit c1 = true := by
    rw [List.all_cons] at hda
    exact (Bool.and_eq_true_iff.mp hda).1
  have hd2 : isAsciiDigit c2 = true := by
    rw [List.all_cons] at hdb
    exact (Bool.and_eq_true_iff.mp hdb).1
  unfold classifyRange
  simp only [List.head?_cons]
  rw [if_neg (by simp [not_letter_of_digit c1 hd1]), if_pos ⟨hd1, hd2⟩,
    rustParseUsize_digits _ ha hda hva, rustParseUsize_digits _ hb hdb hvb]
  rfl

theorem classifyRange_mixedCase (a b : Str) (idx : Nat) (c1 c2 : Char)
    (ha : a.head? = some c1) (hb : b.head? = some c2)
    (hl1 : isAsciiLetter c1 = true) (hl2 : isAsciiLetter c2 = true)
    (hmix : isAsciiUpper c1 ≠ isAsciiUpper c2) :
    classifyRange a b idx = .error "mixed uppercase with lowercase in alphabetic range" := by
  obtain ⟨a1, rfl⟩ : ∃ a1, a = c1 :: a1 := by
    cases a with
    | nil => simp at ha
    | cons d a1 =>
      simp only [List.head?_cons, Option.some_inj] at ha
      exact ⟨a1, by rw [ha]⟩
  obtain ⟨b1, rfl⟩ : ∃ b1, b = c2 :: b1 := by
    cases b with
    | nil => simp at hb
    | cons d b1 =>
      simp only [List.head?_cons, Option.some_inj] at hb
      exact ⟨b1, by rw [hb]⟩
  unfold classifyRange
  simp only [List.head?_cons]
  rw [if_pos ⟨hl1, hl2⟩]
  unfold Token.new_str_range
  simp only [List.head?_cons]
  cases hu1 : isAsciiUpper c1 <;> cases hu2 : isAsciiUpper c2
  · exact absurd (hu1.trans hu2.symm) hmix
  · rfl
  · rfl
  · exact absurd (hu1.trans hu2.symm) hmix

theorem classifyRange_letterDigitMix (a b : Str) (idx : Nat) (c1 c2 : Char)
    (ha : a.head? = some c1) (hb : b.head? = some c2)
    (hmix : (isAsciiLetter c1 = true ∧ isAsciiDigit c2 = true) ∨
            (isAsciiDigit c1 = true ∧ isAsciiLetter c2 = true)) :
    classifyRange a b idx =
      .error ("invalid characters in range token before pos " ++ toString idx) := by
  obtain ⟨a1, rfl⟩ : ∃ a1, a = c1 :: a1 := by
    cases a with
    | nil => simp at ha
    | cons d a1 =>
      simp only [List.head?_cons, Option.some_inj] at ha
      exact ⟨a1, by rw [ha]⟩
  obtain ⟨b1, rfl⟩ : ∃ b1, b = c2 :: b1 := by
    cases b with
    | nil => simp at hb
    | cons d b1 =>
      simp only [List.head?_cons, Option.some_inj] at hb
      exact ⟨b1, by rw [hb]⟩
  unfold classifyRange
  simp only [List.head?_cons]
  rcases hmix with ⟨h1, h2⟩ | ⟨h1, h2⟩
  · rw [if_neg (by simp [not_letter_of_digit c2 h2]),
      if_neg (by simp [not_digit_of_letter c1 h1])]
  · rw [if_neg (by simp [not_letter_of_digit c1 h1]),
      if_neg (by simp [not_digit_of_letter c2 h2])]

/-! Inputs with no delimiter characters at all. -/

theorem parse_plainInput (s : Str) (hne : s ≠ [])
    (hord : ∀ c ∈ s, ordinaryChar .Plain c = true) :
    Pattern.parse s = some (.ok (Pattern.mk s [Token.Plain (trimStr s)])) := by
  unfold Pattern.parse
  have h := parseLoop_run s s [] 0 0 .Plain [] hord
  rw [List.append_nil] at h
  rw [h, parseLoop_nil,
    if_pos (by have := List.length_pos.mpr hne; omega),
    sliceStr_isSome s 0 (0 + s.length) (by omega) (by omega)]
  simp

/-! End of input never errors, whatever the state. -/

theorem parseLoop_endOfInput (s : Str) (idx i j : Nat) (st : ParseState)
    (tks : List Token) (h1 : i ≤ j) (h2 : j ≤ s.length) :
    parseLoop s [] idx i j st tks =
      if j > i then some (.ok (tks ++ [Token.Plain (trimStr ((s.drop i).take (j - i)))]))
      else some (.ok tks) := by
  rw [parseLoop_nil]
  by_cases hj : j > i
  · rw [if_pos hj, if_pos hj, sliceStr_isSome s i j h1 h2]
  · rw [if_neg hj, if_neg hj]

/-! A token with no values empties the whole expansion. -/

theorem expand_empty_of_emptyToken (p : Pattern) (t : Token) (ht : t ∈ p.tokens)
    (hv : t.values = []) : p.expand = [] := by
  unfold Pattern.expand
  have hmem : ([] : List Str) ∈ p.tokens.map Token.values := by
    rw [← hv]
    exact List.mem_map_of_mem _ ht
  cases hp : p.tokens.map Token.values with
  | nil => rfl
  | cons l ls =>
    show (cartesianProduct (l :: ls)).map List.flatten = []
    rw [cartesianProduct_nil_mem (l :: ls) (hp ▸ hmem)]
    rfl

/-! End-to-end expansion of a single bracket range. -/

theorem patternExpand_singleRangeToken (s : Str) (tok : Token) :
    Pattern.expand (Pattern.mk s [Token.Plain [], tok]) = tok.values := by
  unfold Pattern.expand
  exact expand_single tok.values

/-- Parsing and expanding `[L-H]` for decimal endpoint texts: the values of
the resulting numeric range token. -/
theorem patternExpand_rangeInput_digits (L H : Str) (hL0 : L ≠ []) (hH0 : H ≠ [])
    (hL : L.all isAsciiDigit = true) (hH : H.all isAsciiDigit = true)
    (hvL : decimalVal L < usizeBound) (hvH : decimalVal H < usizeBound) :
    patternExpand (rangeInput L H) =
      some (.ok ((List.range' (decimalVal L) (decimalVal H + 1 - decimalVal L)).map
        (fun k => padZero (min L.length H.length) (natDigits k)))) := by
  have hab : ∀ c ∈ L ++ H, isAsciiLetter c = true ∨ isAsciiDigit c = true := by
    intro c hc
    rcases List.mem_append.mp hc with h | h
    · exact Or.inr (List.all_eq_true.mp hL c h)
    · exact Or.inr (List.all_eq_true.mp hH c h)
  have hp := parse_rangeInput L H hab
  rw [classifyRange_digits L H _ hL0 hH0 hL hH hvL hvH] at hp
  unfold patternExpand
  rw [hp]
  show some (Except.ok (Pattern.expand (Pattern.mk (rangeInput L H)
    [Token.Plain [], Token.NumRange (decimalVal L) (decimalVal H)
      (min L.length H.length)]))) = _
  rw [patternExpand_singleRangeToken]
  rfl

theorem expand_singleLiteral (v : Str) :
    (multiCartesianProduct [[v]]).map List.flatten = [v] := by
  show ([v].flatMap (fun x => (cartesianProduct []).map (fun r => x :: r))).map List.flatten
    = [v]
  simp [cartesianProduct]

/-! The claims. -/

/-- C1 (corrected), counterexample: the input `/{a,b` ends inside an
unclosed alternatives group, yet `Pattern::parse` succeeds — it returns no
SyntaxError — flushing the leftover buffer `b` as a trailing literal and
silently dropping the collected alternative `a`. -/
theorem C1_unterminated_cex :
    Pattern.parse "/\x7ba,b".data =
      some (.ok (Pattern.mk "/\x7ba,b".data
        [Token.Plain "/".data, Token.Plain "b".data])) ∧
    ¬ ∃ e, Pattern.parse "/\x7ba,b".data = some (.error e) := by
  refine ⟨rfl, ?_⟩
  rintro ⟨e, he⟩
  rw [show Pattern.parse "/\x7ba,b".data =
      some (.ok (Pattern.mk "/\x7ba,b".data
        [Token.Plain "/".data, Token.Plain "b".data])) from rfl] at he
  exact Except.noConfusion (Option.some.inj he)

/-- C1 (corrected), amended claim: when the scan ends while still inside an
`InSet` or `InRange` state, `Pattern::parse` raises no SyntaxError: end of
input flushes the buffered text (trimmed) as a final `Plain` token when
non-empty — whatever the parse state — and returns `Ok`, silently dropping
the content collected for the unterminated group; `/{a,b` yields the two
literals `/` and `b`. -/
theorem C1_unterminated_amended :
    (∀ (s : Str) (idx i j : Nat) (st : ParseState) (tks : List Token),
        i ≤ j → j ≤ s.length →
        parseLoop s [] idx i j st tks =
          if j > i then
            some (.ok (tks ++ [Token.Plain (trimStr ((s.drop i).take (j - i)))]))
          else some (.ok tks)) ∧
    Pattern.parse "/\x7ba,b".data =
      some (.ok (Pattern.mk "/\x7ba,b".data
        [Token.Plain "/".data, Token.Plain "b".data])) :=
  ⟨parseLoop_endOfInput, rfl⟩

/-- C2 (corrected), counterexample: the delimiter-free input `" a "` (with
surrounding spaces) expands to the single string `"a"`, not to the input
verbatim — the final literal flush trims whitespace. -/
theorem C2_plain_cex :
    patternExpand " a ".data = some (.ok ["a".data]) ∧ ("a".data : Str) ≠ " a ".data :=
  ⟨rfl, by decide⟩

/-- C2 (corrected), amended claim: a non-empty input containing none of
`{`, `[`, `]`, `}` parses successfully and expands to exactly one string:
the input trimmed of leading and trailing whitespace (hence equal to the
input verbatim whenever the input has no surrounding whitespace). -/
theorem C2_plain_trimmed (s : Str) (hne : s ≠ [])
    (h : ∀ c ∈ s, ¬(c = '\x7b') ∧ ¬(c = '[') ∧ ¬(c = ']') ∧ ¬(c = '\x7d')) :
    patternExpand s = some (.ok [trimStr s]) := by
  have hord : ∀ c ∈ s, ordinaryChar .Plain c = true := by
    intro c hc
    obtain ⟨h1, h2, h3, h4⟩ := h c hc
    simp [ordinaryChar, h1, h2, h3, h4]
  unfold patternExpand
  rw [parse_plainInput s hne hord]
  show some (Except.ok (Pattern.expand (Pattern.mk s [Token.Plain (trimStr s)]))) = _
  unfold Pattern.expand
  show some (Except.ok ((multiCartesianProduct [[trimStr s]]).map List.flatten)) = _
  rw [expand_singleLiteral]

/-- C2 witness: the amended claim at the concrete input `hello world`. -/
theorem C2_plain_trimmed_witness :
    patternExpand "hello world".data = some (.ok ["hello world".data]) :=
  C2_plain_trimmed "hello world".data (by decide) (by decide)

/-- C3 (corrected), counterexample: on the empty input the expansion yields
no values at all, not the one-element sequence containing the empty
string. -/
theorem C3_empty_cex :
    patternExpand [] = some (.ok []) ∧ patternExpand [] ≠ some (.ok [([] : Str)]) := by
  refine ⟨rfl, ?_⟩
  intro h
  rw [show patternExpand [] = some (.ok ([] : List Str)) from rfl] at h
  simp at h

/-- C3 (corrected), amended claim: the empty input parses successfully to a
Pattern with zero tokens, and its expansion yields zero values (itertools
`multi_cartesian_product` over no iterators is the empty iterator, not the
singleton of the empty product). -/
theorem C3_empty_amended :
    Pattern.parse [] = some (.ok (Pattern.mk [] [])) ∧ patternExpand [] = some (.ok []) :=
  ⟨rfl, rfl⟩

/-- C4 (confirmed): for every rank `n ≥ 1` representable in `usize`,
converting it to a bijective base-26 alphabetic string and parsing that
string back returns `n`, in the lowercase and the uppercase radix alike. -/
theorem C4_alphabetic_roundtrip (n : Nat) (h1 : 1 ≤ n) (h2 : n < usizeBound) :
    parse_alphabetic_radix (to_alphabetic_radix n 'a' 'z') 'a' 'z' = .ok n ∧
    parse_alphabetic_radix (to_alphabetic_radix n 'A' 'Z') 'A' 'Z' = .ok n :=
  ⟨alpha_roundtrip_radix 'a' 'z' (by decide) n h2,
   alpha_roundtrip_radix 'A' 'Z' (by decide) n h2⟩

/-- C4 witness: the round trip at the concrete rank 703 (`aaa` / `AAA`). -/
theorem C4_alphabetic_roundtrip_witness :
    parse_alphabetic_radix (to_alphabetic_radix 703 'a' 'z') 'a' 'z' = .ok 703 ∧
    parse_alphabetic_radix (to_alphabetic_radix 703 'A' 'Z') 'A' 'Z' = .ok 703 :=
  C4_alphabetic_roundtrip 703 (by decide) (by decide)

/-- C5 (confirmed): `Pattern::parse` never panics — every slice it takes is
within bounds on every input — so it always returns a value: a parsed
`Pattern` or a `SyntaxError`. -/
theorem C5_parse_never_panics :
    ∀ s : Str, ∃ r : Except String Pattern, Pattern.parse s = some r := by
  intro s
  have h := parse_isSome s
  rw [Option.isSome_iff_exists] at h
  exact h

/-- C6 (confirmed): the expansion enumerates the cartesian product in
row-major (odometer) order — in the product of `l :: ls` the combination at
index `i * N + k`, where `N` is the size of the product of `ls`, picks
element `i` of the first segment and combination `k` of the rest, so the
first segment varies slowest and the last fastest; in particular
`[1-2]/[099-101]` yields its six combinations in the order
`1/099, 1/100, 1/101, 2/099, 2/100, 2/101`. -/
theorem C6_rowmajor_order :
    (∀ (l : List Str) (ls : List (List Str)) (i k : Nat) (x : Str) (r : List Str),
        l[i]? = some x → (cartesianProduct ls)[k]? = some r →
        (multiCartesianProduct (l :: ls))[i * (cartesianProduct ls).length + k]? =
          some (x :: r)) ∧
    patternExpand "[1-2]/[099-101]".data =
      some (.ok ["1/099".data, "1/100".data, "1/101".data,
                 "2/099".data, "2/100".data, "2/101".data]) :=
  ⟨fun l ls i k x r hx hr => cartesianProduct_cons_getElem l ls i k x r hx hr, rfl⟩

/-- C7 (confirmed): a numeric range `[L-H]` with digit endpoint texts whose
values fit in `usize` expands to every integer from the value of `L` to the
value of `H` inclusive, in ascending order, each zero-padded to width
`min |L| |H|`. -/
theorem C7_numeric_range (L H : Str) (hL0 : L ≠ []) (hH0 : H ≠ [])
    (hL : L.all isAsciiDigit = true) (hH : H.all isAsciiDigit = true)
    (hvL : decimalVal L < usizeBound) (hvH : decimalVal H < usizeBound) :
    patternExpand (rangeInput L H) =
      some (.ok ((List.range' (decimalVal L) (decimalVal H + 1 - decimalVal L)).map
        (fun k => padZero (min L.length H.length) (natDigits k)))) :=
  patternExpand_rangeInput_digits L H hL0 hH0 hL hH hvL hvH

/-- C7 witness: `[080-120]` expands to the 41 strings `080`, `081`, …,
`120`, zero-padded to three digits. -/
theorem C7_numeric_range_witness :
    patternExpand (rangeInput "080".data "120".data) =
      some (.ok ((List.range' 80 41).map (fun k => padZero 3 (natDigits k)))) ∧
    ((List.range' 80 41).map (fun k => padZero 3 (natDigits k))).head? = some "080".data ∧
    ((List.range' 80 41).map (fun k => padZero 3 (natDigits k))).getLast? = some "120".data :=
  ⟨C7_numeric_range "080".data "120".data (by decide) (by decide) (by decide) (by decide)
    (by decide) (by decide), rfl, rfl⟩

/-- C8 (confirmed): a numeric range with low > high parses without error
and expands to zero strings — `[5-3]` concretely, every inverted digit
range generally — and, fully generally, any token whose value sequence is
empty empties the whole expansion rather than failing. -/
theorem C8_empty_range :
    (∀ L H : Str, L ≠ [] → H ≠ [] →
        L.all isAsciiDigit = true → H.all isAsciiDigit = true →
        decimalVal L < usizeBound → decimalVal H < usizeBound →
        decimalVal H < decimalVal L →
        patternExpand (rangeInput L H) = some (.ok [])) ∧
    (∀ (p : Pattern) (t : Token), t ∈ p.tokens → t.values = [] → p.expand = []) ∧
    Pattern.parse "[5-3]".data =
      some (.ok (Pattern.mk "[5-3]".data [Token.Plain [], Token.NumRange 5 3 1])) ∧
    patternExpand "[5-3]".data = some (.ok []) := by
  refine ⟨?_, expand_empty_of_emptyToken, rfl, rfl⟩
  intro L H hL0 hH0 hL hH hvL hvH hlt
  rw [patternExpand_rangeInput_digits L H hL0 hH0 hL hH hvL hvH,
    show decimalVal H + 1 - decimalVal L = 0 from by omega]
  rfl

/-! Alphabetic ranges with mismatched cases always error. -/

theorem char_le_iff_toNat (c1 c2 : Char) : c1 ≤ c2 ↔ c1.toNat ≤ c2.toNat := Iff.rfl

theorem parseAlphaAux_cons (lo hi c : Char) (cs : Str) (acc : Nat) :
    parseAlphaAux lo hi (c :: cs) acc =
      if lo ≤ c ∧ c ≤ hi then
        parseAlphaAux lo hi cs ((acc * radixSize lo hi + (c.toNat - lo.toNat) + 1) % usizeBound)
      else .error "char not in range" := rfl

theorem parseAlphaAux_error_of_badChar (lo hi : Char) :
    ∀ s : Str, (∃ c ∈ s, ¬(lo ≤ c ∧ c ≤ hi)) →
      ∀ acc, ∃ e, parseAlphaAux lo hi s acc = .error e := by
  intro s
  induction s with
  | nil =>
    rintro ⟨c, hc, _⟩
    cases hc
  | cons c cs ih =>
    rintro ⟨d, hd, hbad⟩ acc
    rw [parseAlphaAux_cons]
    by_cases hc : lo ≤ c ∧ c ≤ hi
    · rw [if_pos hc]
      rcases List.mem_cons.mp hd with heq | hd2
      · subst heq
        exact absurd hc hbad
      · exact ih ⟨d, hd2, hbad⟩ _
    · rw [if_neg hc]
      exact ⟨_, rfl⟩

theorem upper_toNat_bounds (c : Char) (h : isAsciiUpper c = true) :
    65 ≤ c.toNat ∧ c.toNat ≤ 90 := by
  unfold isAsciiUpper at h
  simp only [Bool.and_eq_true, decide_eq_true_eq] at h
  exact h

theorem lower_toNat_bounds (c : Char) (h : isAsciiLower c = true) :
    97 ≤ c.toNat ∧ c.toNat ≤ 122 := by
  unfold isAsciiLower at h
  simp only [Bool.and_eq_true, decide_eq_true_eq] at h
  exact h

theorem letter_not_lower_is_upper (c : Char) (hl : isAsciiLetter c = true)
    (h : isAsciiLower c = false) : isAsciiUpper c = true := by
  unfold isAsciiLetter at hl
  simp only [Bool.or_eq_true] at hl
  rcases hl with h1 | h1
  · exact h1
  · rw [h1] at h
    cases h

theorem letter_not_upper_is_lower (c : Char) (hl : isAsciiLetter c = true)
    (h : isAsciiUpper c = false) : isAsciiLower c = true := by
  unfold isAsciiLetter at hl
  simp only [Bool.or_eq_true] at hl
  rcases hl with h1 | h1
  · rw [h1] at h
    cases h
  · exact h1

theorem upper_not_in_lower_radix (c : Char) (h : isAsciiUpper c = true) :
    ¬('a' ≤ c ∧ c ≤ 'z') := by
  rintro ⟨x, _⟩
  rw [char_le_iff_toNat] at x
  have hb := upper_toNat_bounds c h
  have ha : ('a' : Char).toNat = 97 := rfl
  omega

theorem lower_not_in_upper_radix (c : Char) (h : isAsciiLower c = true) :
    ¬('A' ≤ c ∧ c ≤ 'Z') := by
  rintro ⟨_, y⟩
  rw [char_le_iff_toNat] at y
  have hb := lower_toNat_bounds c h
  have hz : ('Z' : Char).toNat = 90 := rfl
  omega

theorem new_str_range_error_of_mixedCase (a b : Str) (c1 c2 : Char)
    (ha : a.head? = some c1) (hb : b.head? = some c2)
    (hla : a.all isAsciiLetter = true) (hlb : b.all isAsciiLetter = true)
    (hmixU : ¬((a ++ b).all isAsciiUpper = true))
    (hmixL : ¬((a ++ b).all isAsciiLower = true)) :
    ∃ e, Token.new_str_range a b = .error e := by
  obtain ⟨a1, rfl⟩ : ∃ a1, a = c1 :: a1 := by
    cases a with
    | nil => simp at ha
    | cons d a1 =>
      simp only [List.head?_cons, Option.some_inj] at ha
      exact ⟨a1, by rw [ha]⟩
  obtain ⟨b1, rfl⟩ : ∃ b1, b = c2 :: b1 := by
    cases b with
    | nil => simp at hb
    | cons d b1 =>
      simp only [List.head?_cons, Option.some_inj] at hb
      exact ⟨b1, by rw [hb]⟩
  have hlab : ∀ c ∈ (c1 :: a1) ++ (c2 :: b1), isAsciiLetter c = true := by
    intro c hc
    rcases List.mem_append.mp hc with h | h
    · exact List.all_eq_true.mp hla c h
    · exact List.all_eq_true.mp hlb c h
  unfold Token.new_str_range
  simp only [List.head?_cons]
  cases hu1 : isAsciiUpper c1 <;> cases hu2 : isAsciiUpper c2
  · -- both radix picks are lowercase; some character is not lowercase
    rw [List.all_eq_true] at hmixL
    push_neg at hmixL
    obtain ⟨d, hd, hdl⟩ := hmixL
    have hdf : isAsciiLower d = false := by
      revert hdl
      cases isAsciiLower d <;> simp
    have hdu : isAsciiUpper d = true := letter_not_lower_is_upper d (hlab d hd) hdf
    have hbad := upper_not_in_lower_radix d hdu
    rcases List.mem_append.mp hd with hda | hdb
    · obtain ⟨e, he⟩ := parseAlphaAux_error_of_badChar 'a' 'z' (c1 :: a1) ⟨d, hda, hbad⟩ 0
      have he2 : parse_alphabetic_radix (c1 :: a1) 'a' 'z' = .error e := he
      refine ⟨e, ?_⟩
      rw [he2]
      rfl
    · cases hpa : parse_alphabetic_radix (c1 :: a1) 'a' 'z' with
      | error e2 => exact ⟨e2, rfl⟩
      | ok v =>
        obtain ⟨e, he⟩ := parseAlphaAux_error_of_badChar 'a' 'z' (c2 :: b1) ⟨d, hdb, hbad⟩ 0
        have he2 : parse_alphabetic_radix (c2 :: b1) 'a' 'z' = .error e := he
        refine ⟨e, ?_⟩
        show (parse_alphabetic_radix (c2 :: b1) 'a' 'z' >>=
          fun y => pure (Token.StrRange v y false)) = Except.error e
        rw [he2]
        rfl
  · exact ⟨_, rfl⟩
  · exact ⟨_, rfl⟩
  · -- both radix picks are uppercase; some character is not uppercase
    rw [List.all_eq_true] at hmixU
    push_neg at hmixU
    obtain ⟨d, hd, hdu⟩ := hmixU
    have hdf : isAsciiUpper d = false := by
      revert hdu
      cases isAsciiUpper d <;> simp
    have hdl : isAsciiLower d = true := letter_not_upper_is_lower d (hlab d hd) hdf
    have hbad := lower_not_in_upper_radix d hdl
    rcases List.mem_append.mp hd with hda | hdb
    · obtain ⟨e, he⟩ := parseAlphaAux_error_of_badChar 'A' 'Z' (c1 :: a1) ⟨d, hda, hbad⟩ 0
      have he2 : parse_alphabetic_radix (c1 :: a1) 'A' 'Z' = .error e := he
      refine ⟨e, ?_⟩
      rw [he2]
      rfl
    · cases hpa : parse_alphabetic_radix (c1 :: a1) 'A' 'Z' with
      | error e2 => exact ⟨e2, rfl⟩
      | ok v =>
        obtain ⟨e, he⟩ := parseAlphaAux_error_of_badChar 'A' 'Z' (c2 :: b1) ⟨d, hdb, hbad⟩ 0
        have he2 : parse_alphabetic_radix (c2 :: b1) 'A' 'Z' = .error e := he
        refine ⟨e, ?_⟩
        show (parse_alphabetic_radix (c2 :: b1) 'A' 'Z' >>=
          fun y => pure (Token.StrRange v y true)) = Except.error e
        rw [he2]
        rfl

theorem classifyRange_strRange (a b : Str) (idx : Nat) (c1 c2 : Char)
    (ha : a.head? = some c1) (hb : b.head? = some c2)
    (hl1 : isAsciiLetter c1 = true) (hl2 : isAsciiLetter c2 = true) :
    classifyRange a b idx = Token.new_str_range a b := by
  obtain ⟨a1, rfl⟩ : ∃ a1, a = c1 :: a1 := by
    cases a with
    | nil => simp at ha
    | cons d a1 =>
      simp only [List.head?_cons, Option.some_inj] at ha
      exact ⟨a1, by rw [ha]⟩
  obtain ⟨b1, rfl⟩ : ∃ b1, b = c2 :: b1 := by
    cases b with
    | nil => simp at hb
    | cons d b1 =>
      simp only [List.head?_cons, Option.some_inj] at hb
      exact ⟨b1, by rw [hb]⟩
  unfold classifyRange
  simp only [List.head?_cons]
  rw [if_pos ⟨hl1, hl2⟩]

/-- C9 (confirmed): a bracket range whose two endpoints are alphabetic but
of mixed case fails with a SyntaxError (either the first-character case
check or the radix check rejects it), and a range mixing a letter endpoint
with a digit endpoint fails with a SyntaxError; in particular `[Az-b]` and
`[a-9]` are rejected. -/
theorem C9_mixed_range_error :
    (∀ (a b : Str) (c1 c2 : Char),
        a.head? = some c1 → b.head? = some c2 →
        a.all isAsciiLetter = true → b.all isAsciiLetter = true →
        ¬((a ++ b).all isAsciiUpper = true) → ¬((a ++ b).all isAsciiLower = true) →
        ∃ e, Pattern.parse (rangeInput a b) = some (.error e)) ∧
    (∀ a b : Str, a ≠ [] → b ≠ [] →
        ((a.all isAsciiLetter = true ∧ b.all isAsciiDigit = true) ∨
         (a.all isAsciiDigit = true ∧ b.all isAsciiLetter = true)) →
        ∃ e, Pattern.parse (rangeInput a b) = some (.error e)) ∧
    (∃ e, Pattern.parse "[Az-b]".data = some (.error e)) ∧
    (∃ e, Pattern.parse "[a-9]".data = some (.error e)) := by
  have part1 : ∀ (a b : Str) (c1 c2 : Char),
      a.head? = some c1 → b.head? = some c2 →
      a.all isAsciiLetter = true → b.all isAsciiLetter = true →
      ¬((a ++ b).all isAsciiUpper = true) → ¬((a ++ b).all isAsciiLower = true) →
      ∃ e, Pattern.parse (rangeInput a b) = some (.error e) := by
    intro a b c1 c2 ha hb hla hlb hmU hmL
    have hab : ∀ c ∈ a ++ b, isAsciiLetter c = true ∨ isAsciiDigit c = true := by
      intro c hc
      rcases List.mem_append.mp hc with h | h
      · exact Or.inl (List.all_eq_true.mp hla c h)
      · exact Or.inl (List.all_eq_true.mp hlb c h)
    obtain ⟨e, he⟩ := new_str_range_error_of_mixedCase a b c1 c2 ha hb hla hlb hmU hmL
    refine ⟨e, ?_⟩
    rw [parse_rangeInput a b hab,
      classifyRange_strRange a b (a.length + b.length + 2) c1 c2 ha hb
        (List.all_eq_true.mp hla c1 (List.mem_of_mem_head? ha))
        (List.all_eq_true.mp hlb c2 (List.mem_of_mem_head? hb)),
      he]
  have part2 : ∀ a b : Str, a ≠ [] → b ≠ [] →
      ((a.all isAsciiLetter = true ∧ b.all isAsciiDigit = true) ∨
       (a.all isAsciiDigit = true ∧ b.all isAsciiLetter = true)) →
      ∃ e, Pattern.parse (rangeInput a b) = some (.error e) := by
    intro a b ha0 hb0 hmix
    obtain ⟨c1, a1, rfl⟩ : ∃ c1 a1, a = c1 :: a1 := by
      cases a with
      | nil => exact absurd rfl ha0
      | cons c1 a1 => exact ⟨c1, a1, rfl⟩
    obtain ⟨c2, b1, rfl⟩ : ∃ c2 b1, b = c2 :: b1 := by
      cases b with
      | nil => exact absurd rfl hb0
      | cons c2 b1 => exact ⟨c2, b1, rfl⟩
    have hab : ∀ c ∈ (c1 :: a1) ++ (c2 :: b1),
        isAsciiLetter c = true ∨ isAsciiDigit c = true := by
      intro c hc
      rcases List.mem_append.mp hc with h | h <;> rcases hmix with ⟨h1, h2⟩ | ⟨h1, h2⟩
      · exact Or.inl (List.all_eq_true.mp h1 c h)
      · exact Or.inr (List.all_eq_true.mp h1 c h)
      · exact Or.inr (List.all_eq_true.mp h2 c h)
      · exact Or.inl (List.all_eq_true.mp h2 c h)
    have hmix2 : (isAsciiLetter c1 = true ∧ isAsciiDigit c2 = true) ∨
        (isAsciiDigit c1 = true ∧ isAsciiLetter c2 = true) := by
      rcases hmix with ⟨h1, h2⟩ | ⟨h1, h2⟩
      · exact Or.inl ⟨List.all_eq_true.mp h1 c1 (List.mem_cons_self _ _),
          List.all_eq_true.mp h2 c2 (List.mem_cons_self _ _)⟩
      · exact Or.inr ⟨List.all_eq_true.mp h1 c1 (List.mem_cons_self _ _),
          List.all_eq_true.mp h2 c2 (List.mem_cons_self _ _)⟩
    refine ⟨"invalid characters in range token before pos " ++
      toString ((c1 :: a1).length + (c2 :: b1).length + 2), ?_⟩
    rw [parse_rangeInput _ _ hab,
      classifyRange_letterDigitMix (c1 :: a1) (c2 :: b1) _ c1 c2 rfl rfl hmix2]
  refine ⟨part1, part2, ?_, ?_⟩
  · exact part1 "Az".data "b".data 'A' 'b' rfl rfl (by decide) (by decide)
      (by decide) (by decide)
  · exact part2 "a".data "9".data (by decide) (by decide) (Or.inl ⟨by decide, by decide⟩)

/-- C10 (confirmed): a `-` scanned inside a range never errors: it
overwrites the previously captured start (discarding it) with the trimmed
text accumulated since the last capture, so `[a-b-c]` parses successfully
as the alphabetic range from `b` to `c` (ranks 2 and 3), expanding to `b`,
`c`; the text `a` before the first hyphen is silently discarded. -/
theorem C10_multi_hyphen :
    (∀ (s rest : Str) (idx i j : Nat) (v : Str) (tks : List Token) (buf : Str),
        sliceStr s i j = some buf →
        parseLoop s ('-' :: rest) idx i j (.InRange v) tks =
          parseLoop s rest (idx + 1) (idx + 1) (idx + 1) (.InRange (trimStr buf)) tks) ∧
    Pattern.parse "[a-b-c]".data =
      some (.ok (Pattern.mk "[a-b-c]".data [Token.Plain [], Token.StrRange 2 3 false])) ∧
    patternExpand "[a-b-c]".data = some (.ok ["b".data, "c".data]) := by
  refine ⟨?_, rfl, rfl⟩
  intro s rest idx i j v tks buf hbuf
  rw [parseLoop_cons, parseStep_dash_inRange, hbuf]
